import Mathlib

/-!
Formal model of the incremental glob-traversal engine of turbo-tasks-fs
(read_glob.rs): `read_glob` / `track_glob` over a directory tree with
symlink resolution, together with the correctness properties of the
traversal.

Paths are modelled as lists of path segments; the strings handed to the
glob predicates are the slash-joined relative paths exactly as the code
computes them. Filesystem state is modelled as an inductive tree where
each entry carries the classification the filesystem collaborator would
report for it; a symlink node carries the terminal node that
resolve_symlink would produce (including, for a misbehaving collaborator,
a still-unresolved symlink), or the message it would fail with.
-/

abbrev FsPath := List String

/-- One named child of a directory, as classified by the filesystem layer. -/
inductive DirectoryEntry where
  | file (path : FsPath)
  | directory (path : FsPath)
  | symlink (path : FsPath)
  | other (path : FsPath)
  | error
deriving DecidableEq

def DirectoryEntry.path? : DirectoryEntry → Option FsPath
  | .file p => some p
  | .directory p => some p
  | .symlink p => some p
  | .other p => some p
  | .error => none

def DirectoryEntry.isDirectory : DirectoryEntry → Bool
  | .directory _ => true
  | _ => false

def DirectoryEntry.isSymlink : DirectoryEntry → Bool
  | .symlink _ => true
  | _ => false

/-- The compiled glob pattern, seen only through its two predicates. -/
structure Glob where
  matches_path : String → Bool
  can_match_in_directory : String → Bool

/-- Traversal failures: an ordinary propagated error (anyhow-style bail),
or an abnormal termination (a Rust panic, e.g. from unreachable or a
failed unwrap). -/
inductive TErr where
  | failure (msg : String)
  | panic (msg : String)
deriving DecidableEq

/-- Model of FileSystemPath.is_inside_or_equal: a is inside-or-equal-to b
iff b is an ancestor-or-equal of a, i.e. a segment-wise path prefix. -/
def is_inside_or_equal (a b : FsPath) : Bool := b.isPrefixOf a

/-- Join path segments with "/" (the relative-path string of a FsPath). -/
def joinSegs : List String → String
  | [] => ""
  | [s] => s
  | s :: rest => s ++ "/" ++ joinSegs rest

/-- The entry_path computation of the traversal:
if prefix.is_empty() then segment else prefix + "/" + segment. -/
def joinRel (pre s : String) : String := if pre = "" then s else pre ++ "/" ++ s

/-- The message of the bail in resolve_symlink_safely. -/
def symlink_loop_message (p : FsPath) : String :=
  "\x27" ++ joinSegs p ++ "\x27 is a symlink causes that causes an infinite loop!"

/-- Shallow embedding of resolve_symlink_safely, parameterized by the
filesystem collaborator resolve_symlink (resolver). A directory entry
reached by following a symlink is rejected when the raw source path is
inside-or-equal-to the resolved target path. -/
def resolve_symlink_safely (resolver : DirectoryEntry → Except TErr DirectoryEntry)
    (entry : DirectoryEntry) : Except TErr DirectoryEntry :=
  match resolver entry with
  | .error e => .error e
  | .ok resolved_entry =>
    if (resolved_entry != entry) && resolved_entry.isDirectory then
      match entry.path?, resolved_entry.path? with
      | some source_path, some target_path =>
        if is_inside_or_equal source_path target_path then
          .error (.failure (symlink_loop_message source_path))
        else
          .ok resolved_entry
      | _, _ => .error (.panic "called unwrap on a None value")
    else
      .ok resolved_entry

/-- The filesystem, unfolded as a tree. A dir node lists its children;
a notFoundDir is a directory whose read_dir yields NotFound; a symlink
node records what resolve_symlink yields for it (the terminal node at the
target, or a failure). -/
inductive Node where
  | file (path : FsPath)
  | dir (path : FsPath) (children : List (String × Node))
  | notFoundDir (path : FsPath)
  | other (path : FsPath)
  | error
  | symlink (path : FsPath) (res : Node)
  | symlinkFail (path : FsPath) (msg : String)

/-- The raw classification of a node, as a directory listing reports it. -/
def Node.entry : Node → DirectoryEntry
  | .file p => .file p
  | .dir p _ => .directory p
  | .notFoundDir p => .directory p
  | .other p => .other p
  | .error => .error
  | .symlink p _ => .symlink p
  | .symlinkFail p _ => .symlink p

/-- The collaborator resolve_symlink on a node: a symlink resolves to the
classification of its terminal target (or fails); anything else resolves
to itself. -/
def Node.resolveRaw : Node → Except TErr DirectoryEntry
  | .symlink _ res => .ok res.entry
  | .symlinkFail _ msg => .error (.failure msg)
  | n => .ok n.entry

/-- resolve_symlink_safely applied to a listed node. -/
def Node.resolveSafe (n : Node) : Except TErr DirectoryEntry :=
  resolve_symlink_safely (fun _ => n.resolveRaw) n.entry

/-- The path field of a node (unwrap-with-default; only the error node
lacks a path). -/
def Node.pathD : Node → FsPath
  | .file p => p
  | .dir p _ => p
  | .notFoundDir p => p
  | .other p => p
  | .error => []
  | .symlink p _ => p
  | .symlinkFail p _ => p

/-- ReadGlobResult: flat matches at this level plus the memoized
sub-results of the recursed subdirectories. -/
inductive ReadGlobResult where
  | mk (results : List (String × DirectoryEntry))
       (inner : List (String × ReadGlobResult))

def ReadGlobResult.results : ReadGlobResult → List (String × DirectoryEntry)
  | .mk r _ => r

def ReadGlobResult.inner : ReadGlobResult → List (String × ReadGlobResult)
  | .mk _ i => i

def ReadGlobResult.empty : ReadGlobResult := .mk [] []

mutual

/-- read_glob_internal: read the directory listing (a non-dir node reads
as NotFound, a symlink node reads the listing of its resolved target)
and accumulate matches and sub-results. -/
def read_glob_internal (g : Glob) (pre : String) (n : Node) :
    Except TErr ReadGlobResult :=
  match n with
  | .dir _ children => read_glob_entries g pre children
  | .symlink _ res => read_glob_internal g pre res
  | _ => .ok .empty

/-- The per-entry loop of read_glob_internal. -/
def read_glob_entries (g : Glob) (pre : String) (es : List (String × Node)) :
    Except TErr ReadGlobResult :=
  match es with
  | [] => .ok .empty
  | (segment, node) :: rest =>
    let entry_path := joinRel pre segment
    match node.resolveSafe with
    | .error e => .error e
    | .ok entry =>
      let sub : Except TErr (List (String × ReadGlobResult)) :=
        if entry.isDirectory && g.can_match_in_directory entry_path then
          match read_glob_internal g entry_path node with
          | .ok r => .ok [(entry_path, r)]
          | .error e => .error e
        else .ok []
      match sub with
      | .error e => .error e
      | .ok hd_inner =>
        match read_glob_entries g pre rest with
        | .error e => .error e
        | .ok tl =>
          .ok (.mk ((if g.matches_path entry_path then [(entry_path, entry)] else [])
                      ++ tl.results)
                   (hd_inner ++ tl.inner))

end

/-- read_glob: the public entry point, rooted at the empty prefix. -/
def read_glob (directory : Node) (glob : Glob) : Except TErr ReadGlobResult :=
  read_glob_internal glob "" directory

/-- A dependency-registering read issued by the tracking traversal,
tagged with the relative traversal path at which it is issued and the
(resolved) target path handed to the filesystem. -/
inductive Dep where
  | listing (pos : String) (path : FsPath)
  | readFile (pos : String) (path : FsPath)
  | getType (pos : String) (path : FsPath)
deriving DecidableEq

def Dep.pos : Dep → String
  | .listing p _ => p
  | .readFile p _ => p
  | .getType p _ => p

def Dep.isListing : Dep → Bool
  | .listing _ _ => true
  | _ => false

/-- Model of segment.starts_with(dot). -/
def starts_with_dot (s : String) : Bool :=
  match s.data with
  | [] => false
  | c :: _ => c == '.'

mutual

/-- track_glob_internal: the same walk as read_glob_internal, issuing
dependency-registering reads instead of accumulating data. The directory
listing itself is always read (and hence tracked), also when NotFound. -/
def track_glob_internal (g : Glob) (pre : String) (include_dot_files : Bool)
    (n : Node) : Except TErr (List Dep) :=
  match n with
  | .dir path children =>
    match track_glob_entries g pre include_dot_files children with
    | .ok deps => .ok (.listing pre path :: deps)
    | .error e => .error e
  | .symlink _ res => track_glob_internal g pre include_dot_files res
  | n => .ok [.listing pre n.pathD]

/-- The per-entry loop of track_glob_internal; a dot-segment is skipped
entirely when include_dot_files is false. -/
def track_glob_entries (g : Glob) (pre : String) (include_dot_files : Bool)
    (es : List (String × Node)) : Except TErr (List Dep) :=
  match es with
  | [] => .ok []
  | (segment, node) :: rest =>
    if !include_dot_files && starts_with_dot segment then
      track_glob_entries g pre include_dot_files rest
    else
      let entry_path := joinRel pre segment
      match node.resolveSafe with
      | .error e => .error e
      | .ok entry =>
        let hd : Except TErr (List Dep) :=
          match entry with
          | .directory _ =>
            if g.can_match_in_directory entry_path then
              track_glob_internal g entry_path include_dot_files node
            else .ok []
          | .file path =>
            .ok (if g.matches_path entry_path then [.readFile entry_path path] else [])
          | .symlink symlink_path =>
            .error (.panic ("resolve_symlink_safely() should have resolved all symlinks, but found unresolved symlink at path: \x27"
              ++ entry_path ++ "\x27. Found path: \x27" ++ joinSegs symlink_path
              ++ "\x27. Please report this as a bug."))
          | .other path =>
            .ok (if g.matches_path entry_path then [.getType entry_path path] else [])
          | .error => .ok []
        match hd with
        | .error e => .error e
        | .ok hd_deps =>
          match track_glob_entries g pre include_dot_files rest with
          | .error e => .error e
          | .ok tl => .ok (hd_deps ++ tl)

end

/-- track_glob: the public entry point, rooted at the empty prefix. The
Completion token of the code is opaque; what the traversal observably
produces is the set of dependency-registering reads it issues, which is
what the returned list records. -/
def track_glob (directory : Node) (glob : Glob) (include_dot_files : Bool) :
    Except TErr (List Dep) :=
  track_glob_internal glob "" include_dot_files directory

mutual

/-- All result pairs of a ReadGlobResult, including those of the
transitively nested inner sub-results. -/
def flat_results : ReadGlobResult → List (String × DirectoryEntry)
  | .mk results inner => results ++ flat_results_list inner

def flat_results_list : List (String × ReadGlobResult) → List (String × DirectoryEntry)
  | [] => []
  | (_, r) :: rest => flat_results r ++ flat_results_list rest

end

mutual

/-- Every relative path recorded anywhere in a ReadGlobResult: the keys
of results and of inner, transitively. -/
def all_keys : ReadGlobResult → List String
  | .mk results inner => results.map Prod.fst ++ all_keys_list inner

def all_keys_list : List (String × ReadGlobResult) → List String
  | [] => []
  | (k, r) :: rest => k :: (all_keys r ++ all_keys_list rest)

end

mutual

/-- All paths under a directory node (as segment lists), each paired with
the raw classification of the entry found there. -/
def paths_under : Node → List (List String × DirectoryEntry)
  | .dir _ children => paths_under_children children
  | _ => []

def paths_under_children : List (String × Node) → List (List String × DirectoryEntry)
  | [] => []
  | (segment, node) :: rest =>
    ([segment], node.entry)
      :: ((paths_under node).map (fun q => (segment :: q.1, q.2))
            ++ paths_under_children rest)

end

mutual

/-- The tree contains no symlink entries. -/
def noSymlinks : Node → Bool
  | .dir _ children => noSymlinksChildren children
  | .symlink _ _ => false
  | .symlinkFail _ _ => false
  | _ => true

def noSymlinksChildren : List (String × Node) → Bool
  | [] => true
  | (_, node) :: rest => noSymlinks node && noSymlinksChildren rest

end

/-- A well-formed path segment: nonempty and slash-free, as a real
directory-entry name is. -/
def wfSeg (s : String) : Bool := decide (s ≠ "" ∧ ('/' : Char) ∉ s.data)

def wfSegs (l : List String) : Bool := l.all wfSeg

mutual

/-- All entry names in the tree are well-formed segments (also behind
symlinks). -/
def wfNode : Node → Bool
  | .dir _ children => wfChildren children
  | .symlink _ res => wfNode res
  | _ => true

def wfChildren : List (String × Node) → Bool
  | [] => true
  | (segment, node) :: rest => wfSeg segment && wfNode node && wfChildren rest

end

/-- The documented invariant of the glob pattern: a match of a path
implies can_match_in_directory of each of its proper ancestors. -/
def GlobInv (g : Glob) : Prop :=
  ∀ (segs : List String) (j : Nat), wfSegs segs = true → 0 < j →
    j < segs.length → g.matches_path (joinSegs segs) = true →
    g.can_match_in_directory (joinSegs (segs.take j)) = true

/-- p lies strictly under the directory path d, as relative-path
strings. -/
def str_under (d p : String) : Prop := ∃ t, p = d ++ "/" ++ t

/-- A glob matching everything, with no pruning. -/
def allGlob : Glob := ⟨fun _ => true, fun _ => true⟩

/-- A glob matching everything but pruning every subdirectory. -/
def noRecurseGlob : Glob := ⟨fun _ => true, fun _ => false⟩

/-- A glob matching everything but pruning the subdirectory sub. -/
def pruneSubGlob : Glob := ⟨fun _ => true, fun p => decide (p ≠ "sub")⟩

/-- The model of the pattern *.js: a single slash-free segment ending in
".js"; nothing under a subdirectory can match. -/
def starDotJs : Glob :=
  ⟨fun p => decide (('/' : Char) ∉ p.data) && ".js".data.isSuffixOf p.data,
   fun _ => false⟩

/-- dir containing sub/bar (the shape of the read_glob_basic test). -/
def twoLevel : Node :=
  .dir [] [("sub", .dir ["sub"] [("bar", .file ["sub", "bar"])])]

/-- dir containing a/b, two directory levels deep. -/
def nestedDirs : Node :=
  .dir [] [("a", .dir ["a"] [("b", .dir ["a", "b"] [])])]

/-- A directory with a direct child symlink link pointing at the
directory itself. -/
def loopRoot : Node :=
  .dir [] [("foo.js", .file ["foo.js"]), ("link", .symlink ["link"] (.dir [] []))]

/-- link.js pointing at sub/foo.js next to sub (the shape of the
read_glob_symlinks test). -/
def linkRoot : Node :=
  .dir [] [("link.js", .symlink ["link.js"] (.file ["sub", "foo.js"])),
           ("sub", .dir ["sub"] [("foo.js", .file ["sub", "foo.js"])])]

/-- A directory with a dot-file and a plain file. -/
def dotRoot : Node :=
  .dir [] [(".hidden", .file [".hidden"]), ("shown", .file ["shown"])]

/-- A tree on which the resolver collaborator misbehaves: link resolves
to a still-unresolved symlink. -/
def badResolverRoot : Node :=
  .dir [] [("link", .symlink ["link"] (.symlink ["t"] (.file ["u"])))]

theorem str_append_assoc (a b c : String) : a ++ b ++ c = a ++ (b ++ c) := by
  apply String.ext
  simp [String.data_append]

theorem slash_data : ("/" : String).data = ['/'] := rfl

theorem wfSeg_iff (s : String) :
    wfSeg s = true ↔ s ≠ "" ∧ ('/' : Char) ∉ s.data := by
  simp [wfSeg]

theorem joinSegs_cons (s : String) (rest : List String) (h : rest ≠ []) :
    joinSegs (s :: rest) = s ++ "/" ++ joinSegs rest := by
  cases rest with
  | nil => exact absurd rfl h
  | cons a t => rfl

theorem joinSegs_data_cons (s : String) (rest : List String) (h : rest ≠ []) :
    (joinSegs (s :: rest)).data = s.data ++ '/' :: (joinSegs rest).data := by
  rw [joinSegs_cons s rest h]
  simp [String.data_append, slash_data]

theorem joinSegs_append (as bs : List String) (ha : as ≠ []) (hb : bs ≠ []) :
    joinSegs (as ++ bs) = joinSegs as ++ "/" ++ joinSegs bs := by
  induction as with
  | nil => exact absurd rfl ha
  | cons a t ih =>
    cases t with
    | nil => simpa using joinSegs_cons a bs hb
    | cons b u =>
      rw [List.cons_append, joinSegs_cons a ((b :: u) ++ bs) (by simp),
        ih (by simp), joinSegs_cons a (b :: u) (by simp)]
      simp [str_append_assoc]

theorem joinSegs_ne_empty (l : List String) (hl : wfSegs l = true)
    (hne : l ≠ []) : joinSegs l ≠ "" := by
  cases l with
  | nil => exact absurd rfl hne
  | cons s t =>
    cases t with
    | nil =>
      simp [wfSegs, wfSeg] at hl
      simpa [joinSegs] using hl.1
    | cons b u =>
      intro h
      have hd := congrArg String.data h
      rw [joinSegs_data_cons s (b :: u) (by simp)] at hd
      simp at hd

theorem joinRel_joinSegs (dsegs : List String) (s : String)
    (hd : wfSegs dsegs = true) :
    joinRel (joinSegs dsegs) s = joinSegs (dsegs ++ [s]) := by
  cases dsegs with
  | nil => simp [joinRel, joinSegs]
  | cons d ds =>
    have hne : joinSegs (d :: ds) ≠ "" := joinSegs_ne_empty _ hd (by simp)
    rw [joinRel, if_neg hne, joinSegs_append (d :: ds) [s] (by simp) (by simp)]
    rfl

theorem slash_split_unique (a : List Char) :
    ∀ (b x y : List Char), ('/' : Char) ∉ a → ('/' : Char) ∉ b →
      a ++ '/' :: x = b ++ '/' :: y → a = b ∧ x = y := by
  induction a with
  | nil =>
    intro b x y _ hb h
    cases b with
    | nil => simpa using h
    | cons c bs =>
      rw [List.nil_append, List.cons_append] at h
      injection h with h1 h2
      rw [← h1] at hb
      simp at hb
  | cons c as ih =>
    intro b x y ha hb h
    simp only [List.mem_cons, not_or] at ha
    cases b with
    | nil =>
      rw [List.nil_append, List.cons_append] at h
      injection h with h1 h2
      exact absurd h1.symm ha.1
    | cons d bs =>
      simp only [List.mem_cons, not_or] at hb
      rw [List.cons_append, List.cons_append] at h
      injection h with h1 h2
      obtain ⟨hab, hxy⟩ := ih bs x y ha.2 hb.2 h2
      exact ⟨by rw [h1, hab], hxy⟩

theorem joinSegs_nil : joinSegs [] = "" := rfl

theorem joinSegs_singleton (s : String) : joinSegs [s] = s := rfl

theorem wfSegs_cons (s : String) (l : List String) :
    wfSegs (s :: l) = true ↔ wfSeg s = true ∧ wfSegs l = true := by
  simp [wfSegs]

theorem wfSegs_append (a b : List String) :
    wfSegs (a ++ b) = true ↔ wfSegs a = true ∧ wfSegs b = true := by
  simp [wfSegs, List.all_append]

theorem empty_data : ("" : String).data = [] := rfl

theorem mem_slash_of_eq (s J t : String) (h : s = J ++ "/" ++ t) :
    ('/' : Char) ∈ s.data := by
  rw [h]
  simp [String.data_append, slash_data]

/-- Splitting a joined nonempty segment list at its first slash is
unambiguous when the head segments are slash-free. -/
theorem joinSegs_split (p d : String) (ps : List String) (X : String)
    (hp : ('/' : Char) ∉ p.data) (hdp : ('/' : Char) ∉ d.data) (hps : ps ≠ [])
    (h : joinSegs (p :: ps) = d ++ "/" ++ X) :
    p = d ∧ joinSegs ps = X := by
  have hdata := congrArg String.data h
  rw [joinSegs_data_cons p ps hps, String.data_append, String.data_append,
    slash_data, List.append_assoc, List.singleton_append] at hdata
  obtain ⟨h1, h2⟩ := slash_split_unique p.data d.data _ _ hp hdp hdata
  exact ⟨String.ext h1, String.ext h2⟩

/-- A relative path strictly under the join of dsegs is the join of a
proper extension of dsegs, for well-formed segment lists. -/
theorem join_under (dsegs : List String) :
    ∀ (psegs : List String) (t : String), wfSegs dsegs = true → dsegs ≠ [] →
      wfSegs psegs = true →
      joinSegs psegs = joinSegs dsegs ++ "/" ++ t →
      ∃ rest, rest ≠ [] ∧ psegs = dsegs ++ rest ∧ t = joinSegs rest := by
  induction dsegs with
  | nil => intro _ _ _ hne _ _; exact absurd rfl hne
  | cons d ds ih =>
    intro psegs t hwf _ hpwf h
    obtain ⟨hd, hds⟩ := (wfSegs_cons d ds).1 hwf
    obtain ⟨hdne, hdslash⟩ := (wfSeg_iff d).1 hd
    cases psegs with
    | nil =>
      exfalso
      have hdata := congrArg String.data h
      rw [joinSegs_nil, empty_data, String.data_append, String.data_append,
        slash_data] at hdata
      simp at hdata
    | cons p ps =>
      obtain ⟨hp, hps⟩ := (wfSegs_cons p ps).1 hpwf
      obtain ⟨hpne, hpslash⟩ := (wfSeg_iff p).1 hp
      cases ps with
      | nil =>
        exfalso
        rw [joinSegs_singleton] at h
        exact absurd (mem_slash_of_eq _ _ _ h) hpslash
      | cons p1 ps1 =>
        cases ds with
        | nil =>
          rw [joinSegs_singleton] at h
          obtain ⟨hpd, hrest⟩ :=
            joinSegs_split p d (p1 :: ps1) t hpslash hdslash (by simp) h
          exact ⟨p1 :: ps1, by simp, by rw [hpd]; rfl, hrest.symm⟩
        | cons d1 ds1 =>
          have h2 : joinSegs (p :: p1 :: ps1)
              = d ++ "/" ++ (joinSegs (d1 :: ds1) ++ "/" ++ t) := by
            rw [h, joinSegs_cons d (d1 :: ds1) (by simp)]
            simp [str_append_assoc]
          obtain ⟨hpd, hrest⟩ :=
            joinSegs_split p d (p1 :: ps1) _ hpslash hdslash (by simp) h2
          obtain ⟨rest, hrne, hre, hte⟩ :=
            ih (p1 :: ps1) t hds (by simp) ((wfSegs_cons p (p1 :: ps1)).1 hpwf).2 hrest
          exact ⟨rest, hrne, by rw [hpd, hre]; rfl, hte⟩

/-- joinSegs is injective on well-formed segment lists. -/
theorem joinSegs_inj (as : List String) :
    ∀ bs, wfSegs as = true → wfSegs bs = true → joinSegs as = joinSegs bs →
      as = bs := by
  induction as with
  | nil =>
    intro bs _ hbwf h
    cases bs with
    | nil => rfl
    | cons b bs1 =>
      exact absurd h.symm (joinSegs_ne_empty (b :: bs1) hbwf (by simp))
  | cons a as1 ih =>
    intro bs hawf hbwf h
    obtain ⟨ha, has1⟩ := (wfSegs_cons a as1).1 hawf
    obtain ⟨hane, haslash⟩ := (wfSeg_iff a).1 ha
    cases bs with
    | nil =>
      exact absurd h (joinSegs_ne_empty (a :: as1) hawf (by simp))
    | cons b bs1 =>
      obtain ⟨hb, hbs1⟩ := (wfSegs_cons b bs1).1 hbwf
      obtain ⟨hbne, hbslash⟩ := (wfSeg_iff b).1 hb
      cases as1 with
      | nil =>
        cases bs1 with
        | nil =>
          rw [joinSegs_singleton, joinSegs_singleton] at h
          rw [h]
        | cons b1 bs2 =>
          exfalso
          rw [joinSegs_singleton, joinSegs_cons b (b1 :: bs2) (by simp)] at h
          exact absurd (mem_slash_of_eq _ _ _ h) haslash
      | cons a1 as2 =>
        cases bs1 with
        | nil =>
          exfalso
          rw [joinSegs_singleton, joinSegs_cons a (a1 :: as2) (by simp)] at h
          exact absurd (mem_slash_of_eq _ _ _ h.symm) hbslash
        | cons b1 bs2 =>
          have h2 : joinSegs (a :: a1 :: as2) = b ++ "/" ++ joinSegs (b1 :: bs2) := by
            rw [h, joinSegs_cons b (b1 :: bs2) (by simp)]
          obtain ⟨hab, hjoin⟩ :=
            joinSegs_split a b (a1 :: as2) _ haslash hbslash (by simp) h2
          rw [hab, ih (b1 :: bs2) has1 hbs1 hjoin]

theorem resolveSafe_of_ok_entry (n : Node) (h : n.resolveRaw = .ok n.entry) :
    n.resolveSafe = .ok n.entry := by
  simp [Node.resolveSafe, resolve_symlink_safely, h]

theorem noSymlinks_resolveRaw (n : Node) (h : noSymlinks n = true) :
    n.resolveRaw = .ok n.entry := by
  cases n <;> first | rfl | simp [noSymlinks] at h

theorem noSymlinks_resolveSafe (n : Node) (h : noSymlinks n = true) :
    n.resolveSafe = .ok n.entry :=
  resolveSafe_of_ok_entry n (noSymlinks_resolveRaw n h)

theorem paths_under_nil_of_not_dir (n : Node)
    (h : n.entry.isDirectory = false) : paths_under n = [] := by
  cases n <;> first | rfl | simp [Node.entry, DirectoryEntry.isDirectory] at h

theorem flat_results_list_append (a b : List (String × ReadGlobResult)) :
    flat_results_list (a ++ b) = flat_results_list a ++ flat_results_list b := by
  induction a with
  | nil => rfl
  | cons hd tl ih =>
    obtain ⟨k, r⟩ := hd
    simp [flat_results_list, ih]

theorem all_keys_list_append (a b : List (String × ReadGlobResult)) :
    all_keys_list (a ++ b) = all_keys_list a ++ all_keys_list b := by
  induction a with
  | nil => rfl
  | cons hd tl ih =>
    obtain ⟨k, r⟩ := hd
    simp [all_keys_list, ih]

mutual

theorem paths_under_wf (n : Node) :
    wfNode n = true → ∀ q, q ∈ paths_under n → q.1 ≠ [] ∧ wfSegs q.1 = true := by
  intro hwf q hq
  cases n with
  | dir p children =>
    exact paths_under_children_wf children hwf q hq
  | _ => simp [paths_under] at hq

theorem paths_under_children_wf (es : List (String × Node)) :
    wfChildren es = true → ∀ q, q ∈ paths_under_children es →
      q.1 ≠ [] ∧ wfSegs q.1 = true := by
  intro hwf q hq
  cases es with
  | nil => simp [paths_under_children] at hq
  | cons hd rest =>
    obtain ⟨segment, node⟩ := hd
    simp only [wfChildren, Bool.and_eq_true] at hwf
    obtain ⟨⟨hseg, hnode⟩, hrest⟩ := hwf
    simp only [paths_under_children, List.mem_cons, List.mem_append,
      List.mem_map] at hq
    rcases hq with hq | ⟨q', hq', rfl⟩ | hq
    · rw [hq]
      exact ⟨by simp, by simp [wfSegs, hseg]⟩
    · obtain ⟨_, hwfq⟩ := paths_under_wf node hnode q' hq'
      exact ⟨by simp, by simp [wfSegs] at hwfq ⊢; exact ⟨(wfSeg_iff segment).1 hseg |> fun h => by simpa [wfSeg] using hseg, hwfq⟩⟩
    · exact paths_under_children_wf rest hrest q hq

end

theorem read_entries_cons_rec (g : Glob) (pre segment : String) (node : Node)
    (rest : List (String × Node)) (entry : DirectoryEntry)
    (subr tl : ReadGlobResult)
    (hres : node.resolveSafe = .ok entry)
    (hdirA : entry.isDirectory = true)
    (hdirB : g.can_match_in_directory (joinRel pre segment) = true)
    (hsub : read_glob_internal g (joinRel pre segment) node = .ok subr)
    (htl : read_glob_entries g pre rest = .ok tl) :
    read_glob_entries g pre ((segment, node) :: rest) =
      .ok (.mk ((if g.matches_path (joinRel pre segment) then
                   [(joinRel pre segment, entry)] else []) ++ tl.results)
               ((joinRel pre segment, subr) :: tl.inner)) := by
  simp [read_glob_entries, hres, hdirA, hdirB, hsub, htl]

theorem read_entries_cons_norec (g : Glob) (pre segment : String) (node : Node)
    (rest : List (String × Node)) (entry : DirectoryEntry) (tl : ReadGlobResult)
    (hres : node.resolveSafe = .ok entry)
    (hdir : (entry.isDirectory
        && g.can_match_in_directory (joinRel pre segment)) = false)
    (htl : read_glob_entries g pre rest = .ok tl) :
    read_glob_entries g pre ((segment, node) :: rest) =
      .ok (.mk ((if g.matches_path (joinRel pre segment) then
                   [(joinRel pre segment, entry)] else []) ++ tl.results)
               tl.inner) := by
  simp [read_glob_entries, hres, hdir, htl]

theorem read_inner_char (g : Glob) (pre : String) (es : List (String × Node)) :
    ∀ r, read_glob_entries g pre es = .ok r →
      ∀ k sub, (k, sub) ∈ r.inner → ∃ segment node e,
        (segment, node) ∈ es ∧ k = joinRel pre segment ∧
        Node.resolveSafe node = .ok e ∧ e.isDirectory = true ∧
        g.can_match_in_directory k = true ∧
        read_glob_internal g k node = .ok sub := by
  induction es with
  | nil =>
    intro r hr k sub hk
    simp only [read_glob_entries, Except.ok.injEq] at hr
    subst hr
    simp [ReadGlobResult.empty, ReadGlobResult.inner] at hk
  | cons hd rest ih =>
    obtain ⟨segment, node⟩ := hd
    intro r hr k sub hk
    cases hres : node.resolveSafe with
    | error e => simp [read_glob_entries, hres] at hr
    | ok entry =>
      cases htl : read_glob_entries g pre rest with
      | error e =>
        by_cases hdir : (entry.isDirectory
            && g.can_match_in_directory (joinRel pre segment)) = true
        · cases hsub : read_glob_internal g (joinRel pre segment) node with
          | error e2 => simp [read_glob_entries, hres, hdir, hsub] at hr
          | ok subr => simp [read_glob_entries, hres, hdir, hsub, htl] at hr
        · simp only [Bool.not_eq_true] at hdir
          simp [read_glob_entries, hres, hdir, htl] at hr
      | ok tl =>
        by_cases hdir : (entry.isDirectory
            && g.can_match_in_directory (joinRel pre segment)) = true
        · obtain ⟨hdirA, hdirB⟩ := Bool.and_eq_true .. ▸ hdir
          cases hsub : read_glob_internal g (joinRel pre segment) node with
          | error e2 => simp [read_glob_entries, hres, hdir, hsub] at hr
          | ok subr =>
            rw [read_entries_cons_rec g pre segment node rest entry subr tl
              hres hdirA hdirB hsub htl] at hr
            injection hr with hr
            subst hr
            simp only [ReadGlobResult.inner, List.mem_cons] at hk
            rcases hk with hk | hk
            · obtain ⟨hk1, hk2⟩ := Prod.mk.injEq .. ▸ hk
              subst hk1
              subst hk2
              exact ⟨segment, node, entry, List.mem_cons_self _ _, rfl, hres,
                hdirA, hdirB, hsub⟩
            · obtain ⟨s', n', e', hmem, h1, h2, h3, h4, h5⟩ :=
                ih tl htl k sub hk
              exact ⟨s', n', e', List.mem_cons_of_mem _ hmem, h1, h2, h3, h4, h5⟩
        · simp only [Bool.not_eq_true] at hdir
          rw [read_entries_cons_norec g pre segment node rest entry tl
            hres hdir htl] at hr
          injection hr with hr
          subst hr
          simp only [ReadGlobResult.inner] at hk
          obtain ⟨s', n', e', hmem, h1, h2, h3, h4, h5⟩ := ih tl htl k sub hk
          exact ⟨s', n', e', List.mem_cons_of_mem _ hmem, h1, h2, h3, h4, h5⟩

theorem read_results_char (g : Glob) (pre : String) (es : List (String × Node)) :
    ∀ r, read_glob_entries g pre es = .ok r →
      ∀ p e, (p, e) ∈ r.results → ∃ segment node,
        (segment, node) ∈ es ∧ p = joinRel pre segment ∧
        g.matches_path p = true ∧ Node.resolveSafe node = .ok e := by
  induction es with
  | nil =>
    intro r hr p e hk
    simp only [read_glob_entries, Except.ok.injEq] at hr
    subst hr
    simp [ReadGlobResult.empty, ReadGlobResult.results] at hk
  | cons hd rest ih =>
    obtain ⟨segment, node⟩ := hd
    intro r hr p e hk
    cases hres : node.resolveSafe with
    | error e2 => simp [read_glob_entries, hres] at hr
    | ok entry =>
      cases htl : read_glob_entries g pre rest with
      | error e2 =>
        by_cases hdir : (entry.isDirectory
            && g.can_match_in_directory (joinRel pre segment)) = true
        · cases hsub : read_glob_internal g (joinRel pre segment) node with
          | error e3 => simp [read_glob_entries, hres, hdir, hsub] at hr
          | ok subr => simp [read_glob_entries, hres, hdir, hsub, htl] at hr
        · simp only [Bool.not_eq_true] at hdir
          simp [read_glob_entries, hres, hdir, htl] at hr
      | ok tl =>
        have hstep : r.results = (if g.matches_path (joinRel pre segment) then
            [(joinRel pre segment, entry)] else []) ++ tl.results := by
          by_cases hdir : (entry.isDirectory
              && g.can_match_in_directory (joinRel pre segment)) = true
          · obtain ⟨hdirA, hdirB⟩ := Bool.and_eq_true .. ▸ hdir
            cases hsub : read_glob_internal g (joinRel pre segment) node with
            | error e3 => simp [read_glob_entries, hres, hdir, hsub] at hr
            | ok subr =>
              rw [read_entries_cons_rec g pre segment node rest entry subr tl
                hres hdirA hdirB hsub htl] at hr
              injection hr with hr
              subst hr
              rfl
          · simp only [Bool.not_eq_true] at hdir
            rw [read_entries_cons_norec g pre segment node rest entry tl
              hres hdir htl] at hr
            injection hr with hr
            subst hr
            rfl
        rw [hstep] at hk
        rcases List.mem_append.1 hk with hk | hk
        · by_cases hm : g.matches_path (joinRel pre segment) = true
          · simp only [hm, if_true, List.mem_singleton] at hk
            obtain ⟨hk1, hk2⟩ := Prod.mk.injEq .. ▸ hk
            subst hk1
            subst hk2
            exact ⟨segment, node, List.mem_cons_self _ _, rfl, hm, hres⟩
          · simp only [Bool.not_eq_true] at hm
            simp [hm] at hk
        · obtain ⟨s', n', hmem, h1, h2, h3⟩ := ih tl htl p e hk
          exact ⟨s', n', List.mem_cons_of_mem _ hmem, h1, h2, h3⟩

theorem read_results_complete (g : Glob) (pre : String)
    (es : List (String × Node)) :
    ∀ r, read_glob_entries g pre es = .ok r →
      ∀ segment node e, (segment, node) ∈ es → Node.resolveSafe node = .ok e →
        g.matches_path (joinRel pre segment) = true →
        (joinRel pre segment, e) ∈ r.results := by
  induction es with
  | nil =>
    intro r hr segment node e hmem
    simp at hmem
  | cons hd rest ih =>
    obtain ⟨s0, n0⟩ := hd
    intro r hr segment node e hmem hres hm
    cases hres0 : n0.resolveSafe with
    | error e2 => simp [read_glob_entries, hres0] at hr
    | ok entry =>
      cases htl : read_glob_entries g pre rest with
      | error e2 =>
        by_cases hdir : (entry.isDirectory
            && g.can_match_in_directory (joinRel pre s0)) = true
        · cases hsub : read_glob_internal g (joinRel pre s0) n0 with
          | error e3 => simp [read_glob_entries, hres0, hdir, hsub] at hr
          | ok subr => simp [read_glob_entries, hres0, hdir, hsub, htl] at hr
        · simp only [Bool.not_eq_true] at hdir
          simp [read_glob_entries, hres0, hdir, htl] at hr
      | ok tl =>
        have hstep : r.results = (if g.matches_path (joinRel pre s0) then
            [(joinRel pre s0, entry)] else []) ++ tl.results := by
          by_cases hdir : (entry.isDirectory
              && g.can_match_in_directory (joinRel pre s0)) = true
          · obtain ⟨hdirA, hdirB⟩ := Bool.and_eq_true .. ▸ hdir
            cases hsub : read_glob_internal g (joinRel pre s0) n0 with
            | error e3 => simp [read_glob_entries, hres0, hdir, hsub] at hr
            | ok subr =>
              rw [read_entries_cons_rec g pre s0 n0 rest entry subr tl
                hres0 hdirA hdirB hsub htl] at hr
              injection hr with hr
              subst hr
              rfl
          · simp only [Bool.not_eq_true] at hdir
            rw [read_entries_cons_norec g pre s0 n0 rest entry tl
              hres0 hdir htl] at hr
            injection hr with hr
            subst hr
            rfl
        rw [hstep]
        rcases List.mem_cons.1 hmem with hmem | hmem
        · obtain ⟨h1, h2⟩ := Prod.mk.injEq .. ▸ hmem
          subst h1
          subst h2
          rw [hres0] at hres
          injection hres with hres
          subst hres
          simp [hm]
        · exact List.mem_append.2 (.inr (ih tl htl segment node e hmem hres hm))

theorem flat_results_mk (R : List (String × DirectoryEntry))
    (I : List (String × ReadGlobResult)) :
    flat_results (.mk R I) = R ++ flat_results_list I := rfl

theorem flat_results_list_cons (k : String) (r : ReadGlobResult)
    (rest : List (String × ReadGlobResult)) :
    flat_results_list ((k, r) :: rest)
      = flat_results r ++ flat_results_list rest := rfl

theorem flat_results_eq (r : ReadGlobResult) :
    flat_results r = r.results ++ flat_results_list r.inner := by
  cases r
  rfl

theorem all_keys_mk (R : List (String × DirectoryEntry))
    (I : List (String × ReadGlobResult)) :
    all_keys (.mk R I) = R.map Prod.fst ++ all_keys_list I := rfl

theorem all_keys_eq (r : ReadGlobResult) :
    all_keys r = r.results.map Prod.fst ++ all_keys_list r.inner := by
  cases r
  rfl

theorem take_append_singleton (l1 : List String) (a : String)
    (l2 : List String) :
    (l1 ++ a :: l2).take (l1.length + 1) = l1 ++ [a] := by
  induction l1 with
  | nil => simp
  | cons x xs ih => simp [List.take_succ_cons, ih]

mutual

/-- For a symlink-free, well-formed tree the traversal succeeds, and its
flattened results are exactly the matching paths under the directory. -/
theorem read_flat_node (g : Glob) (hinv : GlobInv g) (dsegs : List String)
    (n : Node) (hns : noSymlinks n = true) (hwf : wfNode n = true)
    (hd : wfSegs dsegs = true) :
    ∃ r, read_glob_internal g (joinSegs dsegs) n = .ok r ∧
      ∀ p e, ((p, e) ∈ flat_results r ↔
        ((∃ t, (t, e) ∈ paths_under n ∧ p = joinSegs (dsegs ++ t)) ∧
         g.matches_path p = true)) := by
  cases n with
  | dir path children =>
    simp only [noSymlinks] at hns
    simp only [wfNode] at hwf
    obtain ⟨r, hr, hiff⟩ := read_flat_entries g hinv dsegs children hns hwf hd
    exact ⟨r, hr, by simpa [read_glob_internal, paths_under] using hiff⟩
  | file path =>
    exact ⟨.empty, rfl, by
      simp [flat_results, flat_results_list, ReadGlobResult.empty, paths_under]⟩
  | notFoundDir path =>
    exact ⟨.empty, rfl, by
      simp [flat_results, flat_results_list, ReadGlobResult.empty, paths_under]⟩
  | other path =>
    exact ⟨.empty, rfl, by
      simp [flat_results, flat_results_list, ReadGlobResult.empty, paths_under]⟩
  | error =>
    exact ⟨.empty, rfl, by
      simp [flat_results, flat_results_list, ReadGlobResult.empty, paths_under]⟩
  | symlink path res => simp [noSymlinks] at hns
  | symlinkFail path msg => simp [noSymlinks] at hns

theorem read_flat_entries (g : Glob) (hinv : GlobInv g) (dsegs : List String)
    (es : List (String × Node)) (hns : noSymlinksChildren es = true)
    (hwf : wfChildren es = true) (hd : wfSegs dsegs = true) :
    ∃ r, read_glob_entries g (joinSegs dsegs) es = .ok r ∧
      ∀ p e, ((p, e) ∈ flat_results r ↔
        ((∃ t, (t, e) ∈ paths_under_children es ∧ p = joinSegs (dsegs ++ t)) ∧
         g.matches_path p = true)) := by
  cases es with
  | nil =>
    exact ⟨.empty, rfl, by
      simp [flat_results, flat_results_list, ReadGlobResult.empty,
        paths_under_children]⟩
  | cons hd0 rest =>
    obtain ⟨segment, node⟩ := hd0
    simp only [noSymlinksChildren, Bool.and_eq_true] at hns
    obtain ⟨hnsn, hnsr⟩ := hns
    simp only [wfChildren, Bool.and_eq_true] at hwf
    obtain ⟨⟨hseg, hwfn⟩, hwfr⟩ := hwf
    have hres : node.resolveSafe = .ok node.entry := noSymlinks_resolveSafe node hnsn
    have hep : joinRel (joinSegs dsegs) segment = joinSegs (dsegs ++ [segment]) :=
      joinRel_joinSegs dsegs segment hd
    have hwfd1 : wfSegs (dsegs ++ [segment]) = true := by
      rw [wfSegs_append]
      exact ⟨hd, by simp [wfSegs, hseg]⟩
    obtain ⟨tl, htl, htliff⟩ := read_flat_entries g hinv dsegs rest hnsr hwfr hd
    by_cases hdirA : node.entry.isDirectory = true
    · by_cases hdirB : g.can_match_in_directory
          (joinRel (joinSegs dsegs) segment) = true
      · obtain ⟨subr, hsubr, hsubiff⟩ :=
          read_flat_node g hinv (dsegs ++ [segment]) node hnsn hwfn hwfd1
        refine ⟨_, read_entries_cons_rec g (joinSegs dsegs) segment node rest
          node.entry subr tl hres hdirA hdirB (by rw [hep]; exact hsubr) htl, ?_⟩
        intro p e
        have hmem : (p, e) ∈ flat_results (ReadGlobResult.mk
            ((if g.matches_path (joinRel (joinSegs dsegs) segment) then
                [(joinRel (joinSegs dsegs) segment, node.entry)] else [])
              ++ tl.results)
            ((joinRel (joinSegs dsegs) segment, subr) :: tl.inner)) ↔
            ((p, e) ∈ (if g.matches_path (joinRel (joinSegs dsegs) segment) then
                [(joinRel (joinSegs dsegs) segment, node.entry)] else [])
              ∨ (p, e) ∈ flat_results subr ∨ (p, e) ∈ flat_results tl) := by
          rw [flat_results_mk, flat_results_list_cons, flat_results_eq tl]
          simp only [List.mem_append]
          tauto
        rw [hmem]
        constructor
        · intro h
          rcases h with h | h | h
          · by_cases hm : g.matches_path (joinRel (joinSegs dsegs) segment) = true
            · simp only [hm, if_true, List.mem_singleton] at h
              obtain ⟨h1, h2⟩ := Prod.mk.injEq .. ▸ h
              subst h1
              subst h2
              refine ⟨⟨[segment], ?_, hep⟩, hm⟩
              simp only [paths_under_children]
              exact List.mem_cons_self _ _
            · simp only [Bool.not_eq_true] at hm
              simp [hm] at h
          · obtain ⟨⟨t', ht'mem, ht'p⟩, hm⟩ := (hsubiff p e).1 h
            refine ⟨⟨segment :: t', ?_, ?_⟩, hm⟩
            · simp only [paths_under_children, List.mem_cons, List.mem_append,
                List.mem_map]
              exact Or.inr (Or.inl ⟨(t', e), ht'mem, rfl⟩)
            · rw [ht'p, List.append_assoc]
              rfl
          · obtain ⟨⟨t, htmem, htp⟩, hm⟩ := (htliff p e).1 h
            refine ⟨⟨t, ?_, htp⟩, hm⟩
            simp only [paths_under_children, List.mem_cons, List.mem_append,
              List.mem_map]
            exact Or.inr (Or.inr htmem)
        · rintro ⟨⟨t, htmem, htp⟩, hm⟩
          simp only [paths_under_children, List.mem_cons, List.mem_append,
            List.mem_map] at htmem
          rcases htmem with heq | ⟨q, hq, hqe⟩ | htmem
          · obtain ⟨h1, h2⟩ := Prod.mk.injEq .. ▸ heq
            subst h1
            subst h2
            left
            have hm' : g.matches_path (joinRel (joinSegs dsegs) segment) = true := by
              rw [hep, ← htp]
              exact hm
            simp only [hm', if_true, List.mem_singleton]
            rw [htp, hep]
          · obtain ⟨t1, e1⟩ := q
            obtain ⟨h1, h2⟩ := Prod.mk.injEq .. ▸ hqe
            subst h1
            subst h2
            right
            left
            apply (hsubiff p e1).2
            refine ⟨⟨t1, hq, ?_⟩, hm⟩
            rw [htp, List.append_assoc]
            rfl
          · right
            right
            exact (htliff p e).2 ⟨⟨t, htmem, htp⟩, hm⟩
      · simp only [Bool.not_eq_true] at hdirB
        have hdirF : (node.entry.isDirectory && g.can_match_in_directory
            (joinRel (joinSegs dsegs) segment)) = false := by
          simp [hdirB]
        refine ⟨_, read_entries_cons_norec g (joinSegs dsegs) segment node rest
          node.entry tl hres hdirF htl, ?_⟩
        intro p e
        have hmem : (p, e) ∈ flat_results (ReadGlobResult.mk
            ((if g.matches_path (joinRel (joinSegs dsegs) segment) then
                [(joinRel (joinSegs dsegs) segment, node.entry)] else [])
              ++ tl.results) tl.inner) ↔
            ((p, e) ∈ (if g.matches_path (joinRel (joinSegs dsegs) segment) then
                [(joinRel (joinSegs dsegs) segment, node.entry)] else [])
              ∨ (p, e) ∈ flat_results tl) := by
          rw [flat_results_mk, flat_results_eq tl]
          simp only [List.mem_append]
          tauto
        rw [hmem]
        constructor
        · intro h
          rcases h with h | h
          · by_cases hm : g.matches_path (joinRel (joinSegs dsegs) segment) = true
            · simp only [hm, if_true, List.mem_singleton] at h
              obtain ⟨h1, h2⟩ := Prod.mk.injEq .. ▸ h
              subst h1
              subst h2
              refine ⟨⟨[segment], ?_, hep⟩, hm⟩
              simp only [paths_under_children]
              exact List.mem_cons_self _ _
            · simp only [Bool.not_eq_true] at hm
              simp [hm] at h
          · obtain ⟨⟨t, htmem, htp⟩, hm⟩ := (htliff p e).1 h
            refine ⟨⟨t, ?_, htp⟩, hm⟩
            simp only [paths_under_children, List.mem_cons, List.mem_append,
              List.mem_map]
            exact Or.inr (Or.inr htmem)
        · rintro ⟨⟨t, htmem, htp⟩, hm⟩
          simp only [paths_under_children, List.mem_cons, List.mem_append,
            List.mem_map] at htmem
          rcases htmem with heq | ⟨q, hq, hqe⟩ | htmem
          · obtain ⟨h1, h2⟩ := Prod.mk.injEq .. ▸ heq
            subst h1
            subst h2
            left
            have hm' : g.matches_path (joinRel (joinSegs dsegs) segment) = true := by
              rw [hep, ← htp]
              exact hm
            simp only [hm', if_true, List.mem_singleton]
            rw [htp, hep]
          · exfalso
            obtain ⟨t1, e1⟩ := q
            obtain ⟨h1, h2⟩ := Prod.mk.injEq .. ▸ hqe
            subst h1
            subst h2
            obtain ⟨ht1ne, ht1wf⟩ := paths_under_wf node hwfn (t1, e1) hq
            have hwfall : wfSegs (dsegs ++ segment :: t1) = true := by
              rw [wfSegs_append, wfSegs_cons]
              exact ⟨hd, hseg, ht1wf⟩
            have hlen : dsegs.length + 1 < (dsegs ++ segment :: t1).length := by
              have : 0 < t1.length := List.length_pos.2 ht1ne
              simp only [List.length_append, List.length_cons]
              omega
            have hcm := hinv (dsegs ++ segment :: t1) (dsegs.length + 1)
              hwfall (Nat.succ_pos _) hlen (by rw [← htp]; exact hm)
            rw [take_append_singleton, ← hep] at hcm
            rw [hcm] at hdirB
            exact Bool.true_eq_false ▸ hdirB
          · exact Or.inr ((htliff p e).2 ⟨⟨t, htmem, htp⟩, hm⟩)
    · simp only [Bool.not_eq_true] at hdirA
      have hdirF : (node.entry.isDirectory && g.can_match_in_directory
          (joinRel (joinSegs dsegs) segment)) = false := by
        simp [hdirA]
      refine ⟨_, read_entries_cons_norec g (joinSegs dsegs) segment node rest
        node.entry tl hres hdirF htl, ?_⟩
      intro p e
      have hmem : (p, e) ∈ flat_results (ReadGlobResult.mk
          ((if g.matches_path (joinRel (joinSegs dsegs) segment) then
              [(joinRel (joinSegs dsegs) segment, node.entry)] else [])
            ++ tl.results) tl.inner) ↔
          ((p, e) ∈ (if g.matches_path (joinRel (joinSegs dsegs) segment) then
              [(joinRel (joinSegs dsegs) segment, node.entry)] else [])
            ∨ (p, e) ∈ flat_results tl) := by
        rw [flat_results_mk, flat_results_eq tl]
        simp only [List.mem_append]
        tauto
      rw [hmem]
      constructor
      · intro h
        rcases h with h | h
        · by_cases hm : g.matches_path (joinRel (joinSegs dsegs) segment) = true
          · simp only [hm, if_true, List.mem_singleton] at h
            obtain ⟨h1, h2⟩ := Prod.mk.injEq .. ▸ h
            subst h1
            subst h2
            refine ⟨⟨[segment], ?_, hep⟩, hm⟩
            simp only [paths_under_children]
            exact List.mem_cons_self _ _
          · simp only [Bool.not_eq_true] at hm
            simp [hm] at h
        · obtain ⟨⟨t, htmem, htp⟩, hm⟩ := (htliff p e).1 h
          refine ⟨⟨t, ?_, htp⟩, hm⟩
          simp only [paths_under_children, List.mem_cons, List.mem_append,
            List.mem_map]
          exact Or.inr (Or.inr htmem)
      · rintro ⟨⟨t, htmem, htp⟩, hm⟩
        simp only [paths_under_children, List.mem_cons, List.mem_append,
          List.mem_map] at htmem
        rcases htmem with heq | ⟨q, hq, hqe⟩ | htmem
        · obtain ⟨h1, h2⟩ := Prod.mk.injEq .. ▸ heq
          subst h1
          subst h2
          left
          have hm' : g.matches_path (joinRel (joinSegs dsegs) segment) = true := by
            rw [hep, ← htp]
            exact hm
          simp only [hm', if_true, List.mem_singleton]
          rw [htp, hep]
        · exfalso
          rw [paths_under_nil_of_not_dir node hdirA] at hq
          simp at hq
        · exact Or.inr ((htliff p e).2 ⟨⟨t, htmem, htp⟩, hm⟩)

end

theorem all_keys_list_cons (k : String) (r : ReadGlobResult)
    (rest : List (String × ReadGlobResult)) :
    all_keys_list ((k, r) :: rest) = k :: (all_keys r ++ all_keys_list rest) := rfl

theorem cond_lift (g : Glob) (dsegs : List String) (segment : String)
    (t' : List String)
    (hB : g.can_match_in_directory (joinSegs (dsegs ++ [segment])) = true)
    (hcond : ∀ j, 0 < j → j < t'.length →
      g.can_match_in_directory (joinSegs ((dsegs ++ [segment]) ++ t'.take j)) = true) :
    ∀ j, 0 < j → j < (segment :: t').length →
      g.can_match_in_directory (joinSegs (dsegs ++ (segment :: t').take j)) = true := by
  intro j hj hjl
  cases j with
  | zero => omega
  | succ k =>
    cases k with
    | zero => simpa using hB
    | succ k2 =>
      have hkl : k2 + 1 < t'.length := by
        simp only [List.length_cons] at hjl
        omega
      have hc := hcond (k2 + 1) (Nat.succ_pos _) hkl
      rw [List.take_succ_cons]
      have hlist : dsegs ++ segment :: t'.take (k2 + 1)
          = (dsegs ++ [segment]) ++ t'.take (k2 + 1) := by
        rw [List.append_assoc]
        rfl
      rw [hlist]
      exact hc

theorem append_cons_assoc (dsegs : List String) (segment : String)
    (t' : List String) :
    joinSegs (dsegs ++ segment :: t') = joinSegs ((dsegs ++ [segment]) ++ t') := by
  rw [List.append_assoc]
  rfl

mutual

/-- Every key recorded anywhere in a successful read traversal is the
join of a nonempty well-formed segment extension of the prefix, each of
whose proper directory boundaries passed the pruning test. -/
theorem read_keys_node (g : Glob) (dsegs : List String) (n : Node)
    (hwf : wfNode n = true) (hd : wfSegs dsegs = true) :
    ∀ r, read_glob_internal g (joinSegs dsegs) n = .ok r →
      ∀ p, p ∈ all_keys r → ∃ t, t ≠ [] ∧ wfSegs t = true ∧
        p = joinSegs (dsegs ++ t) ∧
        ∀ j, 0 < j → j < t.length →
          g.can_match_in_directory (joinSegs (dsegs ++ t.take j)) = true := by
  intro r hr p hp
  cases n with
  | dir path children =>
    simp only [wfNode] at hwf
    simp only [read_glob_internal] at hr
    exact read_keys_entries g dsegs children hwf hd r hr p hp
  | symlink path res =>
    simp only [wfNode] at hwf
    simp only [read_glob_internal] at hr
    exact read_keys_node g dsegs res hwf hd r hr p hp
  | file path =>
    simp only [read_glob_internal, Except.ok.injEq] at hr
    subst hr
    simp [all_keys, all_keys_list, ReadGlobResult.empty] at hp
  | notFoundDir path =>
    simp only [read_glob_internal, Except.ok.injEq] at hr
    subst hr
    simp [all_keys, all_keys_list, ReadGlobResult.empty] at hp
  | other path =>
    simp only [read_glob_internal, Except.ok.injEq] at hr
    subst hr
    simp [all_keys, all_keys_list, ReadGlobResult.empty] at hp
  | error =>
    simp only [read_glob_internal, Except.ok.injEq] at hr
    subst hr
    simp [all_keys, all_keys_list, ReadGlobResult.empty] at hp
  | symlinkFail path msg =>
    simp only [read_glob_internal, Except.ok.injEq] at hr
    subst hr
    simp [all_keys, all_keys_list, ReadGlobResult.empty] at hp

theorem read_keys_entries (g : Glob) (dsegs : List String)
    (es : List (String × Node)) (hwf : wfChildren es = true)
    (hd : wfSegs dsegs = true) :
    ∀ r, read_glob_entries g (joinSegs dsegs) es = .ok r →
      ∀ p, p ∈ all_keys r → ∃ t, t ≠ [] ∧ wfSegs t = true ∧
        p = joinSegs (dsegs ++ t) ∧
        ∀ j, 0 < j → j < t.length →
          g.can_match_in_directory (joinSegs (dsegs ++ t.take j)) = true := by
  intro r hr p hp
  cases es with
  | nil =>
    simp only [read_glob_entries, Except.ok.injEq] at hr
    subst hr
    simp [all_keys, all_keys_list, ReadGlobResult.empty] at hp
  | cons hd0 rest =>
    obtain ⟨segment, node⟩ := hd0
    simp only [wfChildren, Bool.and_eq_true] at hwf
    obtain ⟨⟨hseg, hwfn⟩, hwfr⟩ := hwf
    have hep : joinRel (joinSegs dsegs) segment = joinSegs (dsegs ++ [segment]) :=
      joinRel_joinSegs dsegs segment hd
    have hwfd1 : wfSegs (dsegs ++ [segment]) = true := by
      rw [wfSegs_append]
      exact ⟨hd, by simp [wfSegs, hseg]⟩
    have hsingle : ∃ t, t ≠ [] ∧ wfSegs t = true ∧
        joinRel (joinSegs dsegs) segment = joinSegs (dsegs ++ t) ∧
        ∀ j, 0 < j → j < t.length →
          g.can_match_in_directory (joinSegs (dsegs ++ t.take j)) = true := by
      refine ⟨[segment], by simp, by simp [wfSegs, hseg], hep, ?_⟩
      intro j hj hjl
      simp at hjl
      omega
    cases hres : node.resolveSafe with
    | error e => simp [read_glob_entries, hres] at hr
    | ok entry =>
      cases htl : read_glob_entries g (joinSegs dsegs) rest with
      | error e2 =>
        by_cases hdir : (entry.isDirectory
            && g.can_match_in_directory (joinRel (joinSegs dsegs) segment)) = true
        · cases hsub : read_glob_internal g (joinRel (joinSegs dsegs) segment) node with
          | error e3 => simp [read_glob_entries, hres, hdir, hsub] at hr
          | ok subr => simp [read_glob_entries, hres, hdir, hsub, htl] at hr
        · simp only [Bool.not_eq_true] at hdir
          simp [read_glob_entries, hres, hdir, htl] at hr
      | ok tl =>
        by_cases hdir : (entry.isDirectory
            && g.can_match_in_directory (joinRel (joinSegs dsegs) segment)) = true
        · obtain ⟨hdirA, hdirB⟩ := Bool.and_eq_true .. ▸ hdir
          cases hsub : read_glob_internal g (joinRel (joinSegs dsegs) segment) node with
          | error e3 => simp [read_glob_entries, hres, hdir, hsub] at hr
          | ok subr =>
            rw [read_entries_cons_rec g (joinSegs dsegs) segment node rest entry
              subr tl hres hdirA hdirB hsub htl] at hr
            injection hr with hr
            subst hr
            rw [all_keys_mk, all_keys_list_cons] at hp
            simp only [List.map_append, List.mem_append, List.mem_cons] at hp
            rcases hp with (hp | hp) | hp | hp | hp
            · -- key of the if-block of this level
              by_cases hm : g.matches_path (joinRel (joinSegs dsegs) segment) = true
              · simp only [hm, if_true, List.map_cons, List.map_nil,
                  List.mem_singleton] at hp
                subst hp
                exact hsingle
              · simp only [Bool.not_eq_true] at hm
                simp [hm] at hp
            · -- key of tl.results
              refine read_keys_entries g dsegs rest hwfr hd tl htl p ?_
              rw [all_keys_eq]
              exact List.mem_append.2 (.inl hp)
            · -- the inner key itself
              subst hp
              exact hsingle
            · -- keys of the sub-result
              have hsub' : read_glob_internal g (joinSegs (dsegs ++ [segment]))
                  node = .ok subr := by rw [← hep]; exact hsub
              obtain ⟨t', ht'ne, ht'wf, ht'p, ht'cond⟩ :=
                read_keys_node g (dsegs ++ [segment]) node hwfn hwfd1 subr
                  hsub' p hp
              refine ⟨segment :: t', by simp, ?_, ?_, ?_⟩
              · rw [wfSegs_cons]
                exact ⟨hseg, ht'wf⟩
              · rw [ht'p, ← append_cons_assoc]
              · exact cond_lift g dsegs segment t' (by rw [← hep]; exact hdirB)
                  ht'cond
            · -- keys of tl.inner
              refine read_keys_entries g dsegs rest hwfr hd tl htl p ?_
              rw [all_keys_eq]
              exact List.mem_append.2 (.inr hp)
        · simp only [Bool.not_eq_true] at hdir
          rw [read_entries_cons_norec g (joinSegs dsegs) segment node rest entry
            tl hres hdir htl] at hr
          injection hr with hr
          subst hr
          rw [all_keys_mk] at hp
          simp only [List.map_append, List.mem_append] at hp
          rcases hp with (hp | hp) | hp
          · by_cases hm : g.matches_path (joinRel (joinSegs dsegs) segment) = true
            · simp only [hm, if_true, List.map_cons, List.map_nil,
                List.mem_singleton] at hp
              subst hp
              exact hsingle
            · simp only [Bool.not_eq_true] at hm
              simp [hm] at hp
          · refine read_keys_entries g dsegs rest hwfr hd tl htl p ?_
            rw [all_keys_eq]
            exact List.mem_append.2 (.inl hp)
          · refine read_keys_entries g dsegs rest hwfr hd tl htl p ?_
            rw [all_keys_eq]
            exact List.mem_append.2 (.inr hp)

end

mutual

/-- Every dependency issued by a successful tracking traversal is the
listing of the traversal root, or sits at the join of a nonempty
well-formed extension whose proper boundaries all passed the pruning
test; a listing dependency additionally passed the test at its own
position, and with dot-filtering active no segment of the extension
starts with a dot. -/
theorem track_pos_node (g : Glob) (dsegs : List String) (dot : Bool) (n : Node)
    (hwf : wfNode n = true) (hd : wfSegs dsegs = true) :
    ∀ deps, track_glob_internal g (joinSegs dsegs) dot n = .ok deps →
      ∀ dp, dp ∈ deps →
        (dp.isListing = true ∧ dp.pos = joinSegs dsegs) ∨
        (∃ t, t ≠ [] ∧ wfSegs t = true ∧ dp.pos = joinSegs (dsegs ++ t) ∧
          (∀ j, 0 < j → j < t.length →
            g.can_match_in_directory (joinSegs (dsegs ++ t.take j)) = true) ∧
          (dp.isListing = true →
            g.can_match_in_directory (joinSegs (dsegs ++ t)) = true) ∧
          (dot = false → ∀ s ∈ t, starts_with_dot s = false)) := by
  intro deps hdeps dp hdp
  cases n with
  | dir path children =>
    simp only [wfNode] at hwf
    cases hent : track_glob_entries g (joinSegs dsegs) dot children with
    | error e => simp [track_glob_internal, hent] at hdeps
    | ok entdeps =>
      simp only [track_glob_internal, hent, Except.ok.injEq] at hdeps
      subst hdeps
      rcases List.mem_cons.1 hdp with rfl | hdp
      · exact Or.inl ⟨rfl, rfl⟩
      · exact track_pos_entries g dsegs dot children hwf hd entdeps hent dp hdp
  | symlink path res =>
    simp only [wfNode] at hwf
    simp only [track_glob_internal] at hdeps
    exact track_pos_node g dsegs dot res hwf hd deps hdeps dp hdp
  | file path =>
    simp only [track_glob_internal, Except.ok.injEq] at hdeps
    subst hdeps
    rw [List.mem_singleton] at hdp
    subst hdp
    exact Or.inl ⟨rfl, rfl⟩
  | notFoundDir path =>
    simp only [track_glob_internal, Except.ok.injEq] at hdeps
    subst hdeps
    rw [List.mem_singleton] at hdp
    subst hdp
    exact Or.inl ⟨rfl, rfl⟩
  | other path =>
    simp only [track_glob_internal, Except.ok.injEq] at hdeps
    subst hdeps
    rw [List.mem_singleton] at hdp
    subst hdp
    exact Or.inl ⟨rfl, rfl⟩
  | error =>
    simp only [track_glob_internal, Except.ok.injEq] at hdeps
    subst hdeps
    rw [List.mem_singleton] at hdp
    subst hdp
    exact Or.inl ⟨rfl, rfl⟩
  | symlinkFail path msg =>
    simp only [track_glob_internal, Except.ok.injEq] at hdeps
    subst hdeps
    rw [List.mem_singleton] at hdp
    subst hdp
    exact Or.inl ⟨rfl, rfl⟩

theorem track_pos_entries (g : Glob) (dsegs : List String) (dot : Bool)
    (es : List (String × Node)) (hwf : wfChildren es = true)
    (hd : wfSegs dsegs = true) :
    ∀ deps, track_glob_entries g (joinSegs dsegs) dot es = .ok deps →
      ∀ dp, dp ∈ deps →
        (dp.isListing = true ∧ dp.pos = joinSegs dsegs) ∨
        (∃ t, t ≠ [] ∧ wfSegs t = true ∧ dp.pos = joinSegs (dsegs ++ t) ∧
          (∀ j, 0 < j → j < t.length →
            g.can_match_in_directory (joinSegs (dsegs ++ t.take j)) = true) ∧
          (dp.isListing = true →
            g.can_match_in_directory (joinSegs (dsegs ++ t)) = true) ∧
          (dot = false → ∀ s ∈ t, starts_with_dot s = false)) := by
  intro deps hdeps dp hdp
  cases es with
  | nil =>
    simp only [track_glob_entries, Except.ok.injEq] at hdeps
    subst hdeps
    simp at hdp
  | cons hd0 rest =>
    obtain ⟨segment, node⟩ := hd0
    simp only [wfChildren, Bool.and_eq_true] at hwf
    obtain ⟨⟨hseg, hwfn⟩, hwfr⟩ := hwf
    have hep : joinRel (joinSegs dsegs) segment = joinSegs (dsegs ++ [segment]) :=
      joinRel_joinSegs dsegs segment hd
    have hwfd1 : wfSegs (dsegs ++ [segment]) = true := by
      rw [wfSegs_append]
      exact ⟨hd, by simp [wfSegs, hseg]⟩
    by_cases hskip : (!dot && starts_with_dot segment) = true
    · simp only [track_glob_entries, hskip, if_true] at hdeps
      exact track_pos_entries g dsegs dot rest hwfr hd deps hdeps dp hdp
    · simp only [Bool.not_eq_true] at hskip
      have hdotseg : dot = false → starts_with_dot segment = false := by
        intro hdot
        subst hdot
        simpa using hskip
      have hsingleOf : ∀ (isl : Bool),
          (isl = true → g.can_match_in_directory
            (joinSegs (dsegs ++ [segment])) = true) →
          ∃ t, t ≠ [] ∧ wfSegs t = true ∧
            joinRel (joinSegs dsegs) segment = joinSegs (dsegs ++ t) ∧
            (∀ j, 0 < j → j < t.length →
              g.can_match_in_directory (joinSegs (dsegs ++ t.take j)) = true) ∧
            (isl = true → g.can_match_in_directory (joinSegs (dsegs ++ t)) = true) ∧
            (dot = false → ∀ s ∈ t, starts_with_dot s = false) := by
        intro isl hisl
        refine ⟨[segment], by simp, by simp [wfSegs, hseg], hep, ?_, hisl, ?_⟩
        · intro j hj hjl
          simp at hjl
          omega
        · intro hdot s hs
          rw [List.mem_singleton] at hs
          subst hs
          exact hdotseg hdot
      cases hres : node.resolveSafe with
      | error e => simp [track_glob_entries, hskip, hres] at hdeps
      | ok entry =>
        cases htl : track_glob_entries g (joinSegs dsegs) dot rest with
        | error e2 =>
          cases entry with
          | directory p2 =>
            by_cases hcm : g.can_match_in_directory
                (joinRel (joinSegs dsegs) segment) = true
            · cases hsubd : track_glob_internal g
                  (joinRel (joinSegs dsegs) segment) dot node with
              | error e3 =>
                simp [track_glob_entries, hskip, hres, hcm, hsubd] at hdeps
              | ok subdeps =>
                simp [track_glob_entries, hskip, hres, hcm, hsubd, htl] at hdeps
            · simp only [Bool.not_eq_true] at hcm
              simp [track_glob_entries, hskip, hres, hcm, htl] at hdeps
          | file p2 => simp [track_glob_entries, hskip, hres, htl] at hdeps
          | symlink p2 => simp [track_glob_entries, hskip, hres] at hdeps
          | other p2 => simp [track_glob_entries, hskip, hres, htl] at hdeps
          | error => simp [track_glob_entries, hskip, hres, htl] at hdeps
        | ok tldeps =>
          have htail : dp ∈ tldeps →
              (dp.isListing = true ∧ dp.pos = joinSegs dsegs) ∨
              (∃ t, t ≠ [] ∧ wfSegs t = true ∧ dp.pos = joinSegs (dsegs ++ t) ∧
                (∀ j, 0 < j → j < t.length →
                  g.can_match_in_directory (joinSegs (dsegs ++ t.take j)) = true) ∧
                (dp.isListing = true →
                  g.can_match_in_directory (joinSegs (dsegs ++ t)) = true) ∧
                (dot = false → ∀ s ∈ t, starts_with_dot s = false)) :=
            track_pos_entries g dsegs dot rest hwfr hd tldeps htl dp
          cases entry with
          | directory p2 =>
            by_cases hcm : g.can_match_in_directory
                (joinRel (joinSegs dsegs) segment) = true
            · cases hsubd : track_glob_internal g
                  (joinRel (joinSegs dsegs) segment) dot node with
              | error e3 =>
                simp [track_glob_entries, hskip, hres, hcm, hsubd] at hdeps
              | ok subdeps =>
                simp only [track_glob_entries, hskip, hres, hcm, hsubd, htl,
                  Bool.false_eq_true, if_false, if_true, Except.ok.injEq] at hdeps
                subst hdeps
                rcases List.mem_append.1 hdp with hdp | hdp
                · have hsubd' : track_glob_internal g
                      (joinSegs (dsegs ++ [segment])) dot node = .ok subdeps := by
                    rw [← hep]
                    exact hsubd
                  rcases track_pos_node g (dsegs ++ [segment]) dot node hwfn
                      hwfd1 subdeps hsubd' dp hdp with ⟨hisl, hpos⟩ | hdeep
                  · right
                    refine ⟨[segment], by simp, by simp [wfSegs, hseg],
                      by rw [hpos], ?_, ?_, ?_⟩
                    · intro j hj hjl
                      simp at hjl
                      omega
                    · intro _
                      rw [← hep]
                      exact hcm
                    · intro hdot s hs
                      rw [List.mem_singleton] at hs
                      subst hs
                      exact hdotseg hdot
                  · obtain ⟨t', ht'ne, ht'wf, ht'pos, ht'cond, ht'lst, ht'dot⟩ := hdeep
                    right
                    refine ⟨segment :: t', by simp, ?_, ?_, ?_, ?_, ?_⟩
                    · rw [wfSegs_cons]
                      exact ⟨hseg, ht'wf⟩
                    · rw [ht'pos, ← append_cons_assoc]
                    · exact cond_lift g dsegs segment t'
                        (by rw [← hep]; exact hcm) ht'cond
                    · intro hisl
                      rw [append_cons_assoc]
                      exact ht'lst hisl
                    · intro hdot s hs
                      rcases List.mem_cons.1 hs with rfl | hs
                      · exact hdotseg hdot
                      · exact ht'dot hdot s hs
                · exact htail hdp
            · simp only [Bool.not_eq_true] at hcm
              simp only [track_glob_entries, hskip, hres, hcm, htl,
                Bool.false_eq_true, if_false, Except.ok.injEq,
                List.nil_append] at hdeps
              subst hdeps
              exact htail hdp
          | file p2 =>
            simp only [track_glob_entries, hskip, hres, htl, Bool.false_eq_true,
              if_false, Except.ok.injEq] at hdeps
            subst hdeps
            rcases List.mem_append.1 hdp with hdp | hdp
            · by_cases hm : g.matches_path (joinRel (joinSegs dsegs) segment) = true
              · simp only [hm, if_true, List.mem_singleton] at hdp
                subst hdp
                right
                exact hsingleOf false (by intro h; cases h) |>.imp
                  (fun t ht => ht)
              · simp only [Bool.not_eq_true] at hm
                simp [hm] at hdp
            · exact htail hdp
          | symlink p2 => simp [track_glob_entries, hskip, hres] at hdeps
          | other p2 =>
            simp only [track_glob_entries, hskip, hres, htl, Bool.false_eq_true,
              if_false, Except.ok.injEq] at hdeps
            subst hdeps
            rcases List.mem_append.1 hdp with hdp | hdp
            · by_cases hm : g.matches_path (joinRel (joinSegs dsegs) segment) = true
              · simp only [hm, if_true, List.mem_singleton] at hdp
                subst hdp
                right
                exact hsingleOf false (by intro h; cases h) |>.imp
                  (fun t ht => ht)
              · simp only [Bool.not_eq_true] at hm
                simp [hm] at hdp
            · exact htail hdp
          | error =>
            simp only [track_glob_entries, hskip, hres, htl, Bool.false_eq_true,
              if_false, Except.ok.injEq, List.nil_append] at hdeps
            subst hdeps
            exact htail hdp

end

theorem joinRel_empty (s : String) : joinRel "" s = s := rfl

/-- C1 (counterexample): with the glob that matches everything, the
results field of read_glob on a dir containing sub/bar holds only the
top-level key sub, while sub/bar is a matching path under the directory:
the results field alone does not equal the set of matching paths. -/
theorem c1_counterexample :
    (read_glob twoLevel allGlob).map (fun r => r.results.map Prod.fst)
        = .ok ["sub"] ∧
    (["sub", "bar"], DirectoryEntry.file ["sub", "bar"]) ∈ paths_under twoLevel ∧
    allGlob.matches_path (joinSegs ["sub", "bar"]) = true ∧
    ("sub/bar" : String) ∉ (["sub"] : List String) :=
  ⟨rfl, by decide, rfl, by decide⟩

/-- C1 (amended): for every symlink-free well-formed directory tree and
every glob satisfying the documented pruning invariant, read_glob
succeeds and the union of results over the returned ReadGlobResult and
all its transitive inner sub-results equals the set of paths under the
directory for which matches holds, each mapped to its classified entry,
independent of traversal order. -/
theorem c1_amended (g : Glob) (n : Node) (hns : noSymlinks n = true)
    (hwf : wfNode n = true) (hinv : GlobInv g) :
    ∃ r, read_glob n g = .ok r ∧
      ∀ p e, ((p, e) ∈ flat_results r ↔
        ((∃ t, (t, e) ∈ paths_under n ∧ p = joinSegs t) ∧
         g.matches_path p = true)) := by
  obtain ⟨r, hr, hiff⟩ := read_flat_node g hinv [] n hns hwf rfl
  refine ⟨r, hr, ?_⟩
  intro p e
  rw [hiff p e]
  simp only [List.nil_append]

theorem c1_amended_witness :
    ∃ r, read_glob twoLevel allGlob = .ok r ∧
      ∀ p e, ((p, e) ∈ flat_results r ↔
        ((∃ t, (t, e) ∈ paths_under twoLevel ∧ p = joinSegs t) ∧
         allGlob.matches_path p = true)) :=
  c1_amended allGlob twoLevel (by decide) (by decide)
    (fun _ _ _ _ _ _ => rfl)

/-- C2: pruning a directory boundary (can_match_in_directory false at a
well-formed relative path) means that in read mode no recorded key —
result or inner, at any depth — lies strictly under that path, and in
track mode no dependency is issued at a position strictly under it, nor
is the pruned directory itself ever listed. -/
theorem c2_pruning (g : Glob) (n : Node) (dot : Bool) (dsegs : List String)
    (hwf : wfNode n = true) (hd : wfSegs dsegs = true) (hne : dsegs ≠ [])
    (hprune : g.can_match_in_directory (joinSegs dsegs) = false) :
    (∀ r, read_glob n g = .ok r → ∀ p, p ∈ all_keys r →
       ¬ str_under (joinSegs dsegs) p) ∧
    (∀ deps, track_glob n g dot = .ok deps → ∀ dp, dp ∈ deps →
       ¬ str_under (joinSegs dsegs) dp.pos ∧
       (dp.isListing = true → dp.pos ≠ joinSegs dsegs)) := by
  constructor
  · rintro r hr p hp ⟨x, hx⟩
    have hr' : read_glob_internal g (joinSegs []) n = .ok r := hr
    obtain ⟨t, htne, htwf, htp, htcond⟩ :=
      read_keys_node g [] n hwf rfl r hr' p hp
    rw [List.nil_append] at htp
    rw [htp] at hx
    obtain ⟨rest, hrne, hre, -⟩ := join_under dsegs t x hd hne htwf hx
    have hlen : dsegs.length < t.length := by
      rw [hre]
      simp [List.length_pos.2 hrne]
    have hj := htcond dsegs.length (List.length_pos.2 hne) hlen
    rw [List.nil_append, hre, List.take_left] at hj
    rw [hj] at hprune
    simp at hprune
  · intro deps hdeps dp hdp
    have hdeps' : track_glob_internal g (joinSegs []) dot n = .ok deps := hdeps
    rcases track_pos_node g [] dot n hwf rfl deps hdeps' dp hdp with
      ⟨hisl, hpos⟩ | hdeep
    · constructor
      · rintro ⟨x, hx⟩
        rw [hpos, joinSegs_nil] at hx
        have hdata := congrArg String.data hx
        rw [empty_data, String.data_append, String.data_append, slash_data]
          at hdata
        simp at hdata
      · intro _
        rw [hpos]
        exact fun h => joinSegs_ne_empty dsegs hd hne h.symm
    · obtain ⟨t, htne, htwf, htpos, htcond, htlst, -⟩ := hdeep
      rw [List.nil_append] at htpos htlst
      constructor
      · rintro ⟨x, hx⟩
        rw [htpos] at hx
        obtain ⟨rest, hrne, hre, -⟩ := join_under dsegs t x hd hne htwf hx
        have hlen : dsegs.length < t.length := by
          rw [hre]
          simp [List.length_pos.2 hrne]
        have hj := htcond dsegs.length (List.length_pos.2 hne) hlen
        rw [List.nil_append, hre, List.take_left] at hj
        rw [hj] at hprune
        simp at hprune
      · intro hisl hposeq
        have ht : t = dsegs :=
          joinSegs_inj t dsegs htwf hd (by rw [← htpos, hposeq])
        have hc := htlst hisl
        rw [ht] at hc
        rw [hc] at hprune
        simp at hprune

theorem c2_pruning_witness :
    ¬ str_under (joinSegs ["sub"]) "sub" :=
  (c2_pruning pruneSubGlob twoLevel false ["sub"] (by decide) (by decide)
      (by decide) (by decide)).1
    (.mk [("sub", DirectoryEntry.directory ["sub"])] []) rfl "sub" (by decide)

/-- C4 (counterexample): at depth the inner mapping is keyed by the
prefix-joined entry path a/b, not by the immediate child directory name
b. -/
theorem c4_counterexample :
    (read_glob nestedDirs allGlob).map
        (fun r => r.inner.map (fun q => (q.1, q.2.inner.map Prod.fst)))
      = .ok [("a", [("a/b" : String)])] ∧ ("a/b" : String) ≠ "b" :=
  ⟨rfl, by decide⟩

/-- C4 (amended): every binding of the inner mapping produced at prefix
pre is keyed by the prefix-joined entry path of a listed child that
safely resolved to a directory passing the pruning test (the immediate
child name only when the prefix is empty, i.e. at the traversal root),
and its value is that child's own recursively produced ReadGlobResult. -/
theorem c4_amended (g : Glob) (pre : String) (es : List (String × Node))
    (r : ReadGlobResult) (hr : read_glob_entries g pre es = .ok r) :
    ∀ k sub, (k, sub) ∈ r.inner → ∃ segment node e,
      (segment, node) ∈ es ∧ k = joinRel pre segment ∧
      Node.resolveSafe node = .ok e ∧ e.isDirectory = true ∧
      g.can_match_in_directory k = true ∧
      read_glob_internal g k node = .ok sub :=
  read_inner_char g pre es r hr

theorem c4_amended_witness :
    ∃ segment node e,
      (segment, node) ∈ [("b", Node.dir ["a", "b"] [])] ∧
      ("a/b" : String) = joinRel "a" segment ∧
      Node.resolveSafe node = .ok e ∧ e.isDirectory = true ∧
      allGlob.can_match_in_directory "a/b" = true ∧
      read_glob_internal allGlob "a/b" node = .ok (ReadGlobResult.mk [] []) :=
  c4_amended allGlob "a" [("b", Node.dir ["a", "b"] [])]
    (ReadGlobResult.mk [("a/b", DirectoryEntry.directory ["a", "b"])]
      [("a/b", ReadGlobResult.mk [] [])]) rfl "a/b" (ReadGlobResult.mk [] [])
    (List.mem_singleton.2 rfl)

/-- C5: matching is evaluated against each entry's own prefix-joined
path while the recorded value is the safely resolved entry; concretely,
link.js pointing at sub/foo.js under the pattern *.js yields exactly
the result link.js mapped to File(sub/foo.js) with an empty inner map,
and in track mode the content-read dependency is issued on the resolved
target path. -/
theorem c5_symlink_transparency :
    (∀ (g : Glob) (rootFsPath : FsPath) (ch : List (String × Node))
        (r : ReadGlobResult), read_glob (.dir rootFsPath ch) g = .ok r →
      ∀ p e, (p, e) ∈ r.results → ∃ segment node,
        (segment, node) ∈ ch ∧ p = segment ∧ g.matches_path p = true ∧
        Node.resolveSafe node = .ok e) ∧
    read_glob linkRoot starDotJs = .ok (.mk
      [("link.js", .file ["sub", "foo.js"])] []) ∧
    track_glob linkRoot starDotJs true
      = .ok [.listing "" [], .readFile "link.js" ["sub", "foo.js"]] := by
  refine ⟨?_, rfl, rfl⟩
  intro g rootFsPath ch r hr p e hp
  obtain ⟨segment, node, hmem, hpj, hm, hres⟩ :=
    read_results_char g "" ch r hr p e hp
  exact ⟨segment, node, hmem, by rw [hpj, joinRel_empty], hm, hres⟩

theorem c5_witness :
    ∃ segment node,
      (segment, node) ∈ [("link.js",
          Node.symlink ["link.js"] (.file ["sub", "foo.js"])),
        ("sub", Node.dir ["sub"] [("foo.js", Node.file ["sub", "foo.js"])])] ∧
      ("link.js" : String) = segment ∧
      starDotJs.matches_path "link.js" = true ∧
      Node.resolveSafe node = .ok (.file ["sub", "foo.js"]) :=
  c5_symlink_transparency.1 starDotJs []
    [("link.js", Node.symlink ["link.js"] (.file ["sub", "foo.js"])),
     ("sub", Node.dir ["sub"] [("foo.js", Node.file ["sub", "foo.js"])])]
    (ReadGlobResult.mk [("link.js", DirectoryEntry.file ["sub", "foo.js"])] [])
    rfl "link.js" (.file ["sub", "foo.js"]) (by decide)

/-- C6: with include_dot_files false, track_glob issues every dependency
either at the traversal root or at a position all of whose segments are
dot-free (dot entries are skipped entirely at each level), while
read_glob applies no dot filter: any listed entry whose prefix-joined
path matches lands in results, dot-named or not. -/
theorem c6_dot_filter :
    (∀ (g : Glob) (n : Node) (deps : List Dep), wfNode n = true →
       track_glob n g false = .ok deps → ∀ dp, dp ∈ deps →
         dp.pos = "" ∨ ∃ t, t ≠ [] ∧
           (∀ s ∈ t, starts_with_dot s = false) ∧ dp.pos = joinSegs t) ∧
    (∀ (g : Glob) (pre : String) (es : List (String × Node))
        (r : ReadGlobResult), read_glob_entries g pre es = .ok r →
       ∀ segment node e, (segment, node) ∈ es → Node.resolveSafe node = .ok e →
         g.matches_path (joinRel pre segment) = true →
         (joinRel pre segment, e) ∈ r.results) ∧
    read_glob dotRoot allGlob = .ok (.mk
      [(".hidden", .file [".hidden"]), ("shown", .file ["shown"])] []) ∧
    track_glob dotRoot allGlob false
      = .ok [.listing "" [], .readFile "shown" ["shown"]] := by
  refine ⟨?_, ?_, rfl, rfl⟩
  · intro g n deps hwf hdeps dp hdp
    have hdeps' : track_glob_internal g (joinSegs []) false n = .ok deps := hdeps
    rcases track_pos_node g [] false n hwf rfl deps hdeps' dp hdp with
      ⟨-, hpos⟩ | hdeep
    · exact Or.inl hpos
    · obtain ⟨t, htne, -, htpos, -, -, htdot⟩ := hdeep
      rw [List.nil_append] at htpos
      exact Or.inr ⟨t, htne, htdot rfl, htpos⟩
  · intro g pre es r hr segment node e hmem hres hm
    exact read_results_complete g pre es r hr segment node e hmem hres hm

theorem c6_witness :
    (Dep.readFile "sub/bar" ["sub", "bar"]).pos = "" ∨ ∃ t, t ≠ [] ∧
      (∀ s ∈ t, starts_with_dot s = false) ∧
      (Dep.readFile "sub/bar" ["sub", "bar"]).pos = joinSegs t :=
  c6_dot_filter.1 allGlob twoLevel
    [Dep.listing "" [], Dep.listing "sub" ["sub"],
     Dep.readFile "sub/bar" ["sub", "bar"]] (by decide) rfl
    (Dep.readFile "sub/bar" ["sub", "bar"]) (by decide)

/-- C7: a NotFound directory listing is a valid result state for both
entry points: read_glob succeeds with an empty ReadGlobResult and
track_glob succeeds (returning its completion), the only dependency
being the listing read itself. -/
theorem c7_not_found (g : Glob) (dot : Bool) (p : FsPath) :
    read_glob (.notFoundDir p) g = .ok (.mk [] []) ∧
    track_glob (.notFoundDir p) g dot = .ok [.listing "" p] :=
  ⟨rfl, rfl⟩

theorem c7_witness :
    read_glob (.notFoundDir ["gone"]) allGlob = .ok (.mk [] []) ∧
    track_glob (.notFoundDir ["gone"]) allGlob false
      = .ok [.listing "" ["gone"]] :=
  c7_not_found allGlob false ["gone"]

/-- C3: given a successful collaborator resolution and an entry carrying
a raw source path, resolve_symlink_safely fails exactly when the
resolved classification differs from the input, is a Directory, and the
source path is inside-or-equal-to the resolved target path; any failure
it produces is the SymlinkLoop message naming the source path. A direct
child symlink of the traversal root pointing at the root makes both
read_glob and track_glob fail with that message, for every glob. -/
theorem c3_symlink_loop :
    (∀ (resolver : DirectoryEntry → Except TErr DirectoryEntry)
        (entry resolved : DirectoryEntry) (sp : FsPath),
      resolver entry = .ok resolved → entry.path? = some sp →
      (((∃ e, resolve_symlink_safely resolver entry = .error e) ↔
         (resolved ≠ entry ∧ resolved.isDirectory = true ∧
          is_inside_or_equal sp (resolved.path?.getD []) = true)) ∧
       (∀ e, resolve_symlink_safely resolver entry = .error e →
          e = .failure (symlink_loop_message sp)))) ∧
    (∀ g, read_glob loopRoot g
        = .error (.failure (symlink_loop_message ["link"]))) ∧
    (∀ g dot, track_glob loopRoot g dot
        = .error (.failure (symlink_loop_message ["link"]))) ∧
    symlink_loop_message ["link"]
      = "\x27link\x27 is a symlink causes that causes an infinite loop!" := by
  refine ⟨?_, fun g => rfl, fun g dot => by cases dot <;> rfl, rfl⟩
  intro resolver entry resolved sp hres hsp
  have hrw : resolve_symlink_safely resolver entry
      = if (resolved != entry) && resolved.isDirectory then
          match entry.path?, resolved.path? with
          | some source_path, some target_path =>
            if is_inside_or_equal source_path target_path then
              Except.error (.failure (symlink_loop_message source_path))
            else Except.ok resolved
          | _, _ => Except.error (.panic "called unwrap on a None value")
        else Except.ok resolved := by
    simp only [resolve_symlink_safely, hres]
  by_cases hne : resolved = entry
  · subst hne
    rw [bne_self_eq_false, Bool.false_and, if_neg (by simp)] at hrw
    refine ⟨⟨?_, ?_⟩, ?_⟩
    · rintro ⟨e, he⟩
      rw [hrw] at he
      cases he
    · rintro ⟨hc, -, -⟩
      exact absurd rfl hc
    · intro e he
      rw [hrw] at he
      cases he
  · have hbne : (resolved != entry) = true := bne_iff_ne.2 hne
    rw [hbne, Bool.true_and] at hrw
    by_cases hdir : resolved.isDirectory = true
    · rw [if_pos hdir, hsp] at hrw
      cases resolved with
      | directory tp =>
        simp only [DirectoryEntry.path?] at hrw
        by_cases hin : is_inside_or_equal sp tp = true
        · rw [if_pos hin] at hrw
          refine ⟨⟨?_, ?_⟩, ?_⟩
          · intro _
            exact ⟨hne, rfl, by simpa using hin⟩
          · intro _
            exact ⟨.failure (symlink_loop_message sp), hrw⟩
          · intro e he
            rw [hrw] at he
            injection he with he
            exact he.symm
        · rw [if_neg hin] at hrw
          refine ⟨⟨?_, ?_⟩, ?_⟩
          · rintro ⟨e, he⟩
            rw [hrw] at he
            cases he
          · rintro ⟨-, -, hc⟩
            exact absurd (show is_inside_or_equal sp tp = true by simpa using hc)
              hin
          · intro e he
            rw [hrw] at he
            cases he
      | file tp => simp [DirectoryEntry.isDirectory] at hdir
      | symlink tp => simp [DirectoryEntry.isDirectory] at hdir
      | other tp => simp [DirectoryEntry.isDirectory] at hdir
      | error => simp [DirectoryEntry.isDirectory] at hdir
    · have hdirF : resolved.isDirectory = false := by
        simpa using hdir
      rw [hdirF, if_neg (by simp)] at hrw
      refine ⟨⟨?_, ?_⟩, ?_⟩
      · rintro ⟨e, he⟩
        rw [hrw] at he
        cases he
      · rintro ⟨-, hc, -⟩
        rw [hc] at hdirF
        cases hdirF
      · intro e he
        rw [hrw] at he
        cases he

theorem c3_witness :
    (((∃ e, resolve_symlink_safely (fun _ => .ok (.directory []))
          (.symlink ["link"]) = .error e) ↔
       ((DirectoryEntry.directory []) ≠ (.symlink ["link"]) ∧
        (DirectoryEntry.directory []).isDirectory = true ∧
        is_inside_or_equal ["link"]
          ((DirectoryEntry.directory []).path?.getD []) = true)) ∧
     (∀ e, resolve_symlink_safely (fun _ => .ok (.directory []))
          (.symlink ["link"]) = .error e →
        e = .failure (symlink_loop_message ["link"]))) :=
  c3_symlink_loop.1 (fun _ => .ok (.directory [])) (.symlink ["link"])
    (.directory []) ["link"] rfl rfl

/-- C8: in the tracking per-entry dispatch, a resolved File whose entry
path matches triggers exactly one content read, a resolved Other whose
entry path matches triggers exactly one type read, and an Error entry
contributes no dependency and no failure. -/
theorem c8_track_dispatch (g : Glob) (dot : Bool) (rp : FsPath) (seg : String)
    (p : FsPath) (hseg : starts_with_dot seg = false) :
    track_glob (.dir rp [(seg, .file p)]) g dot =
      .ok (.listing "" rp ::
        (if g.matches_path seg then [.readFile seg p] else [])) ∧
    track_glob (.dir rp [(seg, .other p)]) g dot =
      .ok (.listing "" rp ::
        (if g.matches_path seg then [.getType seg p] else [])) ∧
    track_glob (.dir rp [(seg, Node.error)]) g dot = .ok [.listing "" rp] := by
  refine ⟨?_, ?_, ?_⟩ <;>
    simp [track_glob, track_glob_internal, track_glob_entries, hseg,
      Node.resolveSafe, Node.resolveRaw, Node.entry, resolve_symlink_safely,
      joinRel, bne_self_eq_false]

theorem c8_witness :
    track_glob (.dir ["r"] [("f", .file ["r", "f"])]) allGlob false =
      .ok (.listing "" ["r"] ::
        (if allGlob.matches_path "f" then [.readFile "f" ["r", "f"]] else [])) ∧
    track_glob (.dir ["r"] [("f", .other ["r", "f"])]) allGlob false =
      .ok (.listing "" ["r"] ::
        (if allGlob.matches_path "f" then [.getType "f" ["r", "f"]] else [])) ∧
    track_glob (.dir ["r"] [("f", Node.error)]) allGlob false
      = .ok [.listing "" ["r"]] :=
  c8_track_dispatch allGlob false ["r"] "f" ["r", "f"] (by decide)

/-- C9: resolve_symlink_safely never hands an unresolved Symlink to the
dispatch as long as the collaborator resolver never produces one; if a
misbehaving resolver does, the tracking dispatch terminates with a panic
(the unreachable message naming entry and target), not a recoverable
failure. -/
theorem c9_no_unresolved_symlink :
    (∀ (resolver : DirectoryEntry → Except TErr DirectoryEntry)
        (entry r : DirectoryEntry),
      (∀ x rx, resolver x = .ok rx → rx.isSymlink = false) →
      resolve_symlink_safely resolver entry = .ok r → r.isSymlink = false) ∧
    (∀ g dot, track_glob badResolverRoot g dot = .error (.panic
      ("resolve_symlink_safely() should have resolved all symlinks, but found unresolved symlink at path: \x27link\x27. Found path: \x27t\x27. Please report this as a bug."))) := by
  constructor
  · intro resolver entry r hres hok
    cases hr0 : resolver entry with
    | error e =>
      simp only [resolve_symlink_safely, hr0] at hok
      cases hok
    | ok resolved =>
      have hsym := hres entry resolved hr0
      simp only [resolve_symlink_safely, hr0] at hok
      split at hok
      · split at hok
        · split at hok
          · cases hok
          · injection hok with h
            rw [← h]
            exact hsym
        · cases hok
      · injection hok with h
        rw [← h]
        exact hsym
  · intro g dot
    cases dot <;> rfl

theorem c9_witness :
    DirectoryEntry.isSymlink (.file ["x"]) = false :=
  c9_no_unresolved_symlink.1 (fun _ => .ok (.file ["x"])) (.symlink ["l"])
    (.file ["x"])
    (by
      intro x rx h
      injection h with h
      rw [← h]
      rfl)
    rfl

theorem track_entries_singleton_dir (g : Glob) (dot : Bool) (dpth : FsPath)
    (seg : String) (ch : List (String × Node)) (subdeps : List Dep)
    (hseg : starts_with_dot seg = false)
    (hcm : g.can_match_in_directory seg = true)
    (hsub : track_glob_internal g seg dot (.dir dpth ch) = .ok subdeps) :
    track_glob_entries g "" dot [(seg, .dir dpth ch)] = .ok subdeps := by
  have hres : (Node.dir dpth ch).resolveSafe = .ok (.directory dpth) :=
    resolveSafe_of_ok_entry (Node.dir dpth ch) rfl
  simp [track_glob_entries, hseg, hres, joinRel_empty, hcm, hsub]

/-- C10: a resolved Directory entry never registers a content or type
read of its own in track mode: when it passes the pruning test, its
entire contribution is exactly its recursive sub-tracking — even when
its entry path matches the glob, no other dependency is added; when it
fails the test it contributes nothing at all, while read mode still
inserts a matching Directory into results. -/
theorem c10_directory_no_self_dep (g : Glob) (dot : Bool) (rp dpth : FsPath)
    (seg : String) (ch : List (String × Node))
    (hseg : starts_with_dot seg = false) :
    (∀ subdeps, g.can_match_in_directory seg = true →
       track_glob_internal g seg dot (.dir dpth ch) = .ok subdeps →
       track_glob (.dir rp [(seg, .dir dpth ch)]) g dot
         = .ok (.listing "" rp :: subdeps)) ∧
    (g.can_match_in_directory seg = false →
       track_glob (.dir rp [(seg, .dir dpth ch)]) g dot
         = .ok [.listing "" rp]) ∧
    (g.can_match_in_directory seg = false →
       read_glob (.dir rp [(seg, .dir dpth ch)]) g =
         .ok (.mk (if g.matches_path seg then [(seg, .directory dpth)] else [])
           [])) := by
  refine ⟨?_, ?_, ?_⟩
  · intro subdeps hcm hsub
    have h1 := track_entries_singleton_dir g dot dpth seg ch subdeps hseg hcm hsub
    show track_glob_internal g "" dot (.dir rp [(seg, .dir dpth ch)]) = _
    simp [track_glob_internal, h1]
  · intro hprune
    simp [track_glob, track_glob_internal, track_glob_entries, hseg, hprune,
      Node.resolveSafe, Node.resolveRaw, Node.entry, resolve_symlink_safely,
      joinRel, bne_self_eq_false, DirectoryEntry.isDirectory]
  · intro hprune
    simp [read_glob, read_glob_internal, read_glob_entries, hseg, hprune,
      Node.resolveSafe, Node.resolveRaw, Node.entry, resolve_symlink_safely,
      joinRel, bne_self_eq_false, DirectoryEntry.isDirectory,
      ReadGlobResult.results, ReadGlobResult.inner, ReadGlobResult.empty]

theorem c10_witness :
    track_glob (.dir [] [("d", .dir ["d"] [("f", .file ["d", "f"])])])
        allGlob false
      = .ok [.listing "" [], .listing "d" ["d"],
             .readFile "d/f" ["d", "f"]] ∧
    track_glob (.dir [] [("d", .dir ["d"] [])]) noRecurseGlob false
      = .ok [.listing "" []] ∧
    read_glob (.dir [] [("d", .dir ["d"] [])]) noRecurseGlob =
      .ok (.mk (if noRecurseGlob.matches_path "d" then
        [("d", .directory ["d"])] else []) []) :=
  ⟨(c10_directory_no_self_dep allGlob false [] ["d"] "d"
      [("f", .file ["d", "f"])] (by decide)).1
      [.listing "d" ["d"], .readFile "d/f" ["d", "f"]] rfl rfl,
   (c10_directory_no_self_dep noRecurseGlob false [] ["d"] "d" []
      (by decide)).2.1 rfl,
   (c10_directory_no_self_dep noRecurseGlob false [] ["d"] "d" []
      (by decide)).2.2 rfl⟩
